import Mathlib

/-
Verification of the Rust-Lock (SecureFS) encrypted object store core.

Bytes are modelled as `Nat` and byte strings as `List Nat`.  The external
chacha20poly1305 crate is modelled as an ideal AEAD: `sealBytes` appends a
16-entry authentication tag whose first three slots are injective encodings
of the nonce, the associated data and the message, so that opening under a
different AAD provably fails while the on-wire lengths match the real
cipher (ciphertext length = plaintext length + 16).  All format handling
(headers, nonces, length prefixes, chunking) is translated directly from
src/streaming.rs and src/storagefile_ops.rs.
-/

/-- Chunk size for streaming encryption (64KB), from src/streaming.rs. -/
def CHUNK_SIZE : Nat := 64 * 1024

/-- File format version for streaming encrypted files, from src/streaming.rs. -/
def VERSION_V2_STREAM : Nat := 2

/-- `FormatFlags` from src/streaming.rs: bit 0 of the flags byte is the
compression flag. -/
structure FormatFlags where
  compressed : Bool
deriving DecidableEq, Repr

/-- `FormatFlags::to_byte` from src/streaming.rs. -/
def FormatFlags.to_byte (f : FormatFlags) : Nat :=
  if f.compressed then 1 else 0

/-- `FormatFlags::from_byte` from src/streaming.rs: `(byte & 0x01) != 0`. -/
def FormatFlags.from_byte (b : Nat) : FormatFlags :=
  ⟨b &&& 1 != 0⟩

/-- Big-endian 4-byte encoding of a `u32`, as written by tokio's
`write_u32` in `encrypt_stream` (values are reduced mod 2^32 by the
`as u32` cast). -/
def u32be (n : Nat) : List Nat :=
  [n / 16777216 % 256, n / 65536 % 256, n / 256 % 256, n % 256]

/-- Big-endian read of a 4-byte `u32`, as read by tokio's `read_u32` in
`decrypt_stream`. -/
def readU32be : List Nat → Nat
  | [a, b, c, d] => ((a * 256 + b) * 256 + c) * 256 + d
  | _ => 0

/-- Ideal-cipher model of the external chacha20poly1305 crate's
authentication tag: 16 entries whose first three slots encode the nonce,
the AAD and the message injectively.  This reflects that an AEAD open
succeeds only when nonce, AAD and ciphertext all match a prior seal. -/
def tagBytes (nonce aad msg : List Nat) : List Nat :=
  Encodable.encode nonce :: Encodable.encode aad :: Encodable.encode msg ::
    List.replicate 13 0

/-- Ideal-cipher model of `XChaCha20Poly1305::encrypt`: the ciphertext is
the message followed by the 16-entry tag, matching the real output length
(plaintext length + 16). -/
def sealBytes (nonce aad msg : List Nat) : List Nat :=
  msg ++ tagBytes nonce aad msg

/-- Ideal-cipher model of `XChaCha20Poly1305::decrypt`: strip the 16-entry
tag, recompute it, and fail unless it matches. -/
def openBytes (nonce aad c : List Nat) : Option (List Nat) :=
  if c.length < 16 then none
  else if c.drop (c.length - 16) = tagBytes nonce aad (c.take (c.length - 16))
  then some (c.take (c.length - 16)) else none

/-- The AAD bytes actually passed to the cipher: the Rust code calls the
cipher with a `Payload` carrying `a` when the argument is `Some(a)`, and
with the bare message (equivalently an empty AAD) when it is `None`. -/
def aadB : Option (List Nat) → List Nat
  | some a => a
  | none => []

/-- Error type for the development.  The Rust code routes failures through
`anyhow` with a distinct message per failure site; each constructor below
corresponds to one such site, so two different constructors are two
structurally distinguishable failures.  `src/error.rs` declares the
category taxonomy. -/
inductive SfError where
  /-- `KeyManager::new`: key file length is not 32 (src/key_manager.rs). -/
  | keyLength (found : Nat)
  /-- `decrypt_stream`: version byte is not 2 (src/streaming.rs). -/
  | versionMismatch (v : Nat)
  /-- AEAD open failure: tag or AAD mismatch. -/
  | decryptFailed
  /-- `decrypt_stream`: EOF while reading the version byte. -/
  | eofVersion
  /-- `decrypt_stream`: EOF while reading the flags byte. -/
  | eofFlags
  /-- `decrypt_stream`: EOF while reading a chunk length. -/
  | eofChunkLen
  /-- `decrypt_stream`: EOF while reading a ciphertext chunk. -/
  | eofChunk
  /-- `read_encrypted_auto`: stored object is empty (src/storagefile_ops.rs). -/
  | emptyFile
  /-- Object file missing on read. -/
  | notFound (n : List Nat)
  /-- `delete_file`: removing the object file failed. -/
  | removeFailed (n : List Nat)
  /-- `get_metadata`: sidecar missing. -/
  | metaMissing (n : List Nat)
  /-- `get_metadata`: sidecar unparsable. -/
  | metaParse (n : List Nat)
deriving DecidableEq, Repr

/-- Error categories declared by `SecureFsError` in src/error.rs. -/
inductive ErrCategory where
  | key
  | encryption
  | decryption
  | storage
  | format
  | config
deriving DecidableEq, Repr

/-- Modelled from the spec: section 7's taxonomy assigns each failure site
of the core to a `SecureFsError` category (the operational code itself
carries `anyhow` errors; src/error.rs declares the categories and maps
`std::io::Error` to `Storage`). -/
def SfError.category : SfError → ErrCategory
  | .keyLength _ => .key
  | .versionMismatch _ => .format
  | .decryptFailed => .decryption
  | .eofVersion => .storage
  | .eofFlags => .storage
  | .eofChunkLen => .storage
  | .eofChunk => .storage
  | .emptyFile => .storage
  | .notFound _ => .storage
  | .removeFailed _ => .storage
  | .metaMissing _ => .storage
  | .metaParse _ => .format

/-- The chunk loop of `StreamEncryptor::encrypt_stream` (src/streaming.rs,
lines 86-119), reading from a cursor over the plaintext `P`: each pass
takes up to `CHUNK_SIZE` bytes, seals them under the next nonce with the
(fixed) AAD, and emits `nonce ++ length(4, big-endian) ++ ciphertext`.
Returns the emitted bytes and the accumulated plaintext byte count. -/
def encChunks (nonces : Nat → List Nat) (aad : List Nat) (i : Nat)
    (P : List Nat) : List Nat × Nat :=
  if h : P = [] then ([], 0)
  else
    let m := P.take CHUNK_SIZE
    let c := sealBytes (nonces i) aad m
    let rest := encChunks nonces aad (i + 1) (P.drop CHUNK_SIZE)
    (nonces i ++ u32be c.length ++ c ++ rest.1, m.length + rest.2)
termination_by P.length
decreasing_by
  simp only [List.length_drop]
  have : 0 < P.length := List.length_pos.mpr h
  simp only [CHUNK_SIZE]
  omega

/-- `StreamEncryptor::encrypt_stream` (src/streaming.rs): write the
version byte and the flags byte, then the sealed chunks.  The plaintext
source is modelled as the byte list it yields (cursor semantics: each
read returns `min(remaining, CHUNK_SIZE)` bytes); the fresh random nonce
of chunk `i` is `nonces i`. -/
def encrypt_stream (nonces : Nat → List Nat) (P : List Nat)
    (flags : FormatFlags) (aad : Option (List Nat)) : List Nat × Nat :=
  let body := encChunks nonces (aadB aad) 0 P
  (VERSION_V2_STREAM :: flags.to_byte :: body.1, body.2)

/-- The chunk loop of `StreamEncryptor::decrypt_stream` (src/streaming.rs,
lines 152-193).  `read_exact` on the 24-byte nonce buffer returns an
`UnexpectedEof` error whenever fewer than 24 bytes remain (0 or more may
have been read); the code matches that kind and breaks the loop.  A short
read of the 4-byte length or of the ciphertext is a fatal error, as is an
AEAD open failure.  Returns the bytes written to the sink so far together
with the outcome. -/
def decryptChunks (aad : List Nat) (s : List Nat) (out : List Nat)
    (total : Nat) : List Nat × Except SfError Nat :=
  if s.length < 24 then (out, .ok total)
  else
    let nonce := s.take 24
    let afterNonce := s.drop 24
    if afterNonce.length < 4 then (out, .error .eofChunkLen)
    else
      let len := readU32be (afterNonce.take 4)
      let body := afterNonce.drop 4
      if body.length < len then (out, .error .eofChunk)
      else
        match openBytes nonce aad (body.take len) with
        | none => (out, .error .decryptFailed)
        | some m => decryptChunks aad (body.drop len) (out ++ m) (total + m.length)
termination_by s.length
decreasing_by
  simp only [List.length_drop]
  omega

/-- `StreamEncryptor::decrypt_stream` (src/streaming.rs): read and check
the version byte, read the flags byte, then run the chunk loop.  The
first component is the plaintext delivered to the sink (also on failure,
since the engine does not retract bytes already written). -/
def decrypt_stream (s : List Nat) (aad : Option (List Nat)) :
    List Nat × Except SfError (Nat × FormatFlags) :=
  match s with
  | [] => ([], .error .eofVersion)
  | v :: s1 =>
    if v ≠ VERSION_V2_STREAM then ([], .error (.versionMismatch v))
    else
      match s1 with
      | [] => ([], .error .eofFlags)
      | fb :: s2 =>
        match decryptChunks (aadB aad) s2 [] 0 with
        | (out, .ok total) => (out, .ok (total, FormatFlags.from_byte fb))
        | (out, .error e) => (out, .error e)

/-- The sequence of plaintext chunks produced by the cursor reads of
`encrypt_stream`: successive pieces of at most `CHUNK_SIZE` bytes. -/
def chunkify (P : List Nat) : List (List Nat) :=
  if h : P = [] then []
  else P.take CHUNK_SIZE :: chunkify (P.drop CHUNK_SIZE)
termination_by P.length
decreasing_by
  simp only [List.length_drop]
  have : 0 < P.length := List.length_pos.mpr h
  simp only [CHUNK_SIZE]
  omega

/-- File names as byte strings (Rust `String`/`OsStr` bytes); 46 is the
dot character. -/
abbrev Name := List Nat

/-- Walks a reversed file name and returns the reversed stem if the name
has an extension in Rust's sense: a part after a last dot that does not
start the name (`Path::file_stem`/`Path::extension` semantics). -/
def dropExtRev : List Nat → Option (List Nat)
  | [] => none
  | c :: rest => if c = 46 then (if rest = [] then none else some rest)
    else dropExtRev rest

/-- Rust `Path::file_stem` on a single path component. -/
def fileStem (n : Name) : Name :=
  match dropExtRev n.reverse with
  | some r => r.reverse
  | none => n

/-- Accumulates the extension characters of a reversed file name;
mirrors Rust `Path::extension` on a single component. -/
def extRevAux (acc : List Nat) : List Nat → Option (List Nat)
  | [] => none
  | c :: rest => if c = 46 then (if rest = [] then none else some acc)
    else extRevAux (c :: acc) rest

/-- Rust `Path::extension` on a single path component. -/
def extOf (n : Name) : Option Name :=
  extRevAux [] n.reverse

/-- The bytes of `"meta.json"`. -/
def metaJsonBytes : Name := [109, 101, 116, 97, 46, 106, 115, 111, 110]

/-- The bytes of `"json"`. -/
def jsonBytes : Name := [106, 115, 111, 110]

/-- `path.with_extension("meta.json")` as used for the metadata sidecar in
src/metadata.rs and src/storagefile_ops.rs: replace the final extension
(or append, if none) with `meta.json`. -/
def sidecarName (n : Name) : Name :=
  fileStem n ++ (46 :: metaJsonBytes)

/-- Whether a name has the `.meta.json` sidecar suffix. -/
def isMetaSidecar (n : Name) : Bool :=
  (46 :: metaJsonBytes).isSuffixOf n

/-- One directory entry of the storage root. -/
inductive Entry where
  | file (name : Name) (content : List Nat)
  | dir (name : Name)
deriving DecidableEq, Repr

/-- The storage root directory: its direct entries. -/
structure Storage where
  entries : List Entry
deriving DecidableEq, Repr

/-- Lookup of a file's contents among directory entries. -/
def findEntry : List Entry → Name → Option (List Nat)
  | [], _ => none
  | .file m c :: es, n => if m = n then some c else findEntry es n
  | .dir _ :: es, n => findEntry es n

/-- Contents of the file named `n`, if present. -/
def Storage.find? (st : Storage) (n : Name) : Option (List Nat) :=
  findEntry st.entries n

/-- `fs::try_exists` for a file (probe errors are coerced to `false` by
the code, so the model is plain membership). -/
def Storage.existsFile (st : Storage) (n : Name) : Bool :=
  (st.find? n).isSome

def replaceFile : List Entry → Name → List Nat → List Entry
  | [], n, c => [.file n c]
  | e :: es, n, c =>
    match e with
    | .file m _ => if m = n then .file n c :: es else e :: replaceFile es n c
    | .dir _ => e :: replaceFile es n c

/-- `fs::write`/`File::create`: create the file or overwrite it in place. -/
def Storage.insertFile (st : Storage) (n : Name) (c : List Nat) : Storage :=
  ⟨replaceFile st.entries n c⟩

/-- Removal of the file named `n` from a list of entries. -/
def removeEntry : List Entry → Name → List Entry
  | [], _ => []
  | .file m c :: es, n =>
    if m = n then removeEntry es n else .file m c :: removeEntry es n
  | .dir d :: es, n => .dir d :: removeEntry es n

/-- `fs::remove_file`: drop the file entry named `n`. -/
def Storage.removeFile (st : Storage) (n : Name) : Storage :=
  ⟨removeEntry st.entries n⟩

/-- `FileMetadata` from src/metadata.rs: logical name and plaintext size. -/
structure FileMetadata where
  filename : Name
  size : Nat
deriving DecidableEq, Repr

/-- Injective model of the serde_json serialization of `FileMetadata`
written by `FileMetadata::record` (the external serde_json crate):
length-prefixed filename followed by the size. -/
def encodeMeta (m : FileMetadata) : List Nat :=
  m.filename.length :: (m.filename ++ [m.size])

/-- Partial inverse of `encodeMeta`, modelling the serde_json parse in
`get_metadata`. -/
def decodeMeta (l : List Nat) : Option FileMetadata :=
  match l with
  | [] => none
  | n :: rest =>
    if rest.length = n + 1 then some ⟨rest.take n, (rest.drop n).headD 0⟩
    else none

/-- `FileMetadata::record` (src/metadata.rs): write the sidecar at the
object path with its extension replaced by `meta.json`. -/
def recordMeta (st : Storage) (n : Name) (size : Nat) : Storage :=
  st.insertFile (sidecarName n) (encodeMeta ⟨n, size⟩)

/-- Modelled from the spec: the `encryptor` module (V1 buffer mode) is
declared in src/lib.rs but its source file is not under src/.  Spec 4.2:
generate a fresh random nonce, seal the plaintext (optionally bound to
the AAD) under the cipher, and return `nonce || sealed`. -/
def Encryptor.encrypt (nonce : List Nat) (msg : List Nat)
    (aad : Option (List Nat)) : List Nat :=
  nonce ++ sealBytes nonce (aadB aad) msg

/-- Modelled from the spec: V1 buffer-mode decryption (spec 4.2): split
the first 24 bytes as the nonce, open the remainder with the same AAD;
length-too-short, tag-mismatch and AAD-mismatch conditions are all
Decryption errors. -/
def Encryptor.decrypt (blob : List Nat) (aad : Option (List Nat)) :
    Except SfError (List Nat) :=
  if blob.length < 24 then .error .decryptFailed
  else
    match openBytes (blob.take 24) (aadB aad) (blob.drop 24) with
    | some m => .ok m
    | none => .error .decryptFailed

/-- Modelled from the spec: the lossless compressor used by the missing
`util`/compression code, as an injective container format (a two-byte
magic header, as in gzip, followed by the payload). -/
def compressBytes (m : List Nat) : List Nat :=
  31 :: 139 :: m

/-- Modelled from the spec: decompression; fails on a malformed
container. -/
def decompressBytes : List Nat → Option (List Nat)
  | 31 :: 139 :: rest => some rest
  | _ => none

/-- Modelled from the spec: `encrypt_compressed` compresses, then seals. -/
def Encryptor.encrypt_compressed (nonce : List Nat) (msg : List Nat)
    (aad : Option (List Nat)) : List Nat :=
  Encryptor.encrypt nonce (compressBytes msg) aad

/-- Modelled from the spec: `decrypt_compressed` opens, then decompresses;
a malformed compressed payload is a Decryption error. -/
def Encryptor.decrypt_compressed (blob : List Nat) (aad : Option (List Nat)) :
    Except SfError (List Nat) :=
  match Encryptor.decrypt blob aad with
  | .ok m =>
    match decompressBytes m with
    | some p => .ok p
    | none => .error .decryptFailed
  | .error e => .error e

/-- `SecureFileOps::write_encrypted` (src/storagefile_ops.rs): seal the
buffer (compressed if the façade is configured so) with no AAD, store it
under the logical name, then record the metadata sidecar with the
plaintext size. -/
def write_encrypted (compress : Bool) (nonce : List Nat) (st : Storage)
    (name : Name) (data : List Nat) : Storage :=
  let enc := if compress then Encryptor.encrypt_compressed nonce data none
             else Encryptor.encrypt nonce data none
  recordMeta (st.insertFile name enc) name data.length

/-- `SecureFileOps::read_encrypted` (src/storagefile_ops.rs): read the
object and open it in buffer mode with the configured compression flag. -/
def read_encrypted (compress : Bool) (st : Storage) (name : Name) :
    Except SfError (List Nat) :=
  match st.find? name with
  | none => .error (.notFound name)
  | some data =>
    if compress then Encryptor.decrypt_compressed data none
    else Encryptor.decrypt data none

/-- `SecureFileOps::write_encrypted_stream` (src/storagefile_ops.rs):
stream-encrypt the source with the logical name as AAD and the façade's
compression flag in the header, store the stream, then record the
metadata sidecar.  Returns the new state and the byte count. -/
def write_encrypted_stream (nonces : Nat → List Nat) (compress : Bool)
    (st : Storage) (name : Name) (P : List Nat) : Storage × Nat :=
  let r := encrypt_stream nonces P ⟨compress⟩ (some name)
  (recordMeta (st.insertFile name r.1) name r.2, r.2)

/-- `SecureFileOps::read_encrypted_stream` (src/storagefile_ops.rs):
open the object and stream-decrypt it with the logical name as AAD.
Returns sink contents, byte count and the stream's compression flag. -/
def read_encrypted_stream (st : Storage) (name : Name) :
    Except SfError (List Nat × Nat × Bool) :=
  match st.find? name with
  | none => .error (.notFound name)
  | some data =>
    match decrypt_stream data (some name) with
    | (out, .ok (t, fl)) => .ok (out, t, fl.compressed)
    | (_, .error e) => .error e

/-- `SecureFileOps::read_encrypted_auto` (src/storagefile_ops.rs): read
the stored object; an empty object is an error; if the first byte is the
V2 marker, stream-decrypt with the logical name as AAD, otherwise treat
the whole object as V1 and decrypt with the configured compression flag. -/
def read_encrypted_auto (compress : Bool) (st : Storage) (name : Name) :
    Except SfError (List Nat × Bool) :=
  match st.find? name with
  | none => .error (.notFound name)
  | some data =>
    match data with
    | [] => .error .emptyFile
    | b :: rest =>
      if b = VERSION_V2_STREAM then
        match decrypt_stream (b :: rest) (some name) with
        | (out, .ok (_, fl)) => .ok (out, fl.compressed)
        | (_, .error e) => .error e
      else
        match (if compress then Encryptor.decrypt_compressed (b :: rest) none
               else Encryptor.decrypt (b :: rest) none) with
        | .ok m => .ok (m, compress)
        | .error e => .error e

/-- `SecureFileOps::delete_file` (src/storagefile_ops.rs): if the object
file exists, remove it (a removal failure is fatal); then, if the sidecar
exists, remove it best-effort (`.ok()` swallows the failure).  `rf`
models which removals fail with an I/O error (a failed removal leaves the
file in place). -/
def delete_file (rf : Name → Bool) (st : Storage) (name : Name) :
    Except SfError Storage :=
  if st.existsFile name then
    if rf name then .error (.removeFailed name)
    else
      let st1 := st.removeFile name
      if st1.existsFile (sidecarName name) then
        .ok (if rf (sidecarName name) then st1
             else st1.removeFile (sidecarName name))
      else .ok st1
  else
    if st.existsFile (sidecarName name) then
      .ok (if rf (sidecarName name) then st
           else st.removeFile (sidecarName name))
    else .ok st

/-- Byte-lexicographic comparison, as Rust's `Ord` on `String` compares
names in `list_files`' sort. -/
def lexLe : List Nat → List Nat → Bool
  | [], _ => true
  | _ :: _, [] => false
  | a :: as, b :: bs => if a < b then true else if b < a then false else lexLe as bs

def insEntry (x : Name × Nat × Bool) :
    List (Name × Nat × Bool) → List (Name × Nat × Bool)
  | [] => [x]
  | y :: ys => if lexLe x.1 y.1 then x :: y :: ys else y :: insEntry x ys

/-- The `sort_by(|a, b| a.0.cmp(&b.0))` call of `list_files`. -/
def sortByName (l : List (Name × Nat × Bool)) : List (Name × Nat × Bool) :=
  l.foldr insEntry []

/-- The per-entry body of the `list_files` loop: skip directories and
entries whose extension is `json`, otherwise return
`(name, size, has_metadata)`. -/
def listItem (st : Storage) : Entry → Option (Name × Nat × Bool)
  | .dir _ => none
  | .file n c =>
    if extOf n = some jsonBytes then none
    else some (n, c.length, st.existsFile (sidecarName n))

/-- `SecureFileOps::list_files` (src/storagefile_ops.rs): collect the
surviving entries, then sort by name. -/
def list_files (st : Storage) : List (Name × Nat × Bool) :=
  sortByName (st.entries.filterMap (listItem st))

/-- `SecureFileOps::get_metadata` (src/storagefile_ops.rs): read the
sidecar at the object path with its extension replaced by `meta.json` and
parse it. -/
def get_metadata (st : Storage) (name : Name) : Except SfError FileMetadata :=
  match st.find? (sidecarName name) with
  | none => .error (.metaMissing name)
  | some content =>
    match decodeMeta content with
    | none => .error (.metaParse name)
    | some m => .ok m

/-- `KeyManager::new` (src/key_manager.rs) for a configured key path.
`onDisk` is the key file's content when the file exists; `freshKey` is
the 32 random bytes generated otherwise.  An existing file whose length
is not 32 is rejected; otherwise its bytes are copied into the 32-byte
key array. -/
def keyManagerNew (onDisk : Option (List Nat)) (freshKey : List Nat) :
    Except SfError (List Nat) :=
  match onDisk with
  | some data =>
    if data.length ≠ 32 then .error (.keyLength data.length)
    else .ok (data.take 32)
  | none => .ok freshKey

theorem FormatFlags.from_byte_to_byte (f : FormatFlags) :
    FormatFlags.from_byte f.to_byte = f := by
  cases f with
  | mk c => cases c <;> decide

theorem length_u32be (n : Nat) : (u32be n).length = 4 := rfl

theorem readU32be_u32be (n : Nat) (h : n < 4294967296) :
    readU32be (u32be n) = n := by
  simp only [u32be, readU32be]
  omega

theorem length_tagBytes (n a m : List Nat) : (tagBytes n a m).length = 16 := rfl

theorem length_sealBytes (n a m : List Nat) :
    (sealBytes n a m).length = m.length + 16 := by
  simp [sealBytes, length_tagBytes]

theorem take_sealBytes (n a m : List Nat) :
    (sealBytes n a m).take m.length = m :=
  List.take_left m (tagBytes n a m)

theorem drop_sealBytes (n a m : List Nat) :
    (sealBytes n a m).drop m.length = tagBytes n a m :=
  List.drop_left m (tagBytes n a m)

theorem openBytes_sealBytes (n a m : List Nat) :
    openBytes n a (sealBytes n a m) = some m := by
  simp only [openBytes, length_sealBytes, Nat.add_sub_cancel, take_sealBytes,
    drop_sealBytes]
  simp

theorem openBytes_sealBytes_wrong_aad (n a b m : List Nat) (hab : a ≠ b) :
    openBytes n b (sealBytes n a m) = none := by
  have htag : tagBytes n a m ≠ tagBytes n b m := by
    intro h
    have h2 : Encodable.encode a = Encodable.encode b := by
      have hcomp := congrArg (fun l => l.get? 1) h
      simpa [tagBytes] using hcomp
    exact hab (Encodable.encode_injective h2)
  simp only [openBytes, length_sealBytes, Nat.add_sub_cancel, take_sealBytes,
    drop_sealBytes]
  rw [if_neg (by omega : ¬ m.length + 16 < 16), if_neg htag]

theorem decryptChunks_short (aad s out : List Nat) (total : Nat)
    (h : s.length < 24) : decryptChunks aad s out total = (out, .ok total) := by
  rw [decryptChunks]
  simp [h]

/-- One pass of the decryption chunk loop over a well-formed chunk. -/
theorem decryptChunks_chunk (aad nonce c rest out : List Nat) (total : Nat)
    (h24 : nonce.length = 24) (hc32 : c.length < 4294967296) :
    decryptChunks aad (nonce ++ u32be c.length ++ c ++ rest) out total
      = match openBytes nonce aad c with
        | none => (out, .error .decryptFailed)
        | some m => decryptChunks aad rest (out ++ m) (total + m.length) := by
  have hlen : (nonce ++ u32be c.length ++ c ++ rest).length
      = 24 + (4 + (c.length + rest.length)) := by
    simp [h24, length_u32be]
  have hdropN : (nonce ++ u32be c.length ++ c ++ rest).drop 24
      = u32be c.length ++ (c ++ rest) := by
    rw [List.append_assoc, List.append_assoc]
    exact List.drop_left' h24
  have htakeN : (nonce ++ u32be c.length ++ c ++ rest).take 24 = nonce := by
    rw [List.append_assoc, List.append_assoc]
    exact List.take_left' h24
  rw [decryptChunks]
  rw [if_neg (by omega : ¬ (nonce ++ u32be c.length ++ c ++ rest).length < 24)]
  simp only [htakeN, hdropN]
  have hlen4 : (u32be c.length ++ (c ++ rest)).length = 4 + (c.length + rest.length) := by
    simp [length_u32be]
  rw [if_neg (by omega : ¬ (u32be c.length ++ (c ++ rest)).length < 4)]
  have htake4 : (u32be c.length ++ (c ++ rest)).take 4 = u32be c.length :=
    List.take_left' (length_u32be c.length)
  have hdrop4 : (u32be c.length ++ (c ++ rest)).drop 4 = c ++ rest :=
    List.drop_left' (length_u32be c.length)
  simp only [htake4, hdrop4, readU32be_u32be c.length hc32]
  rw [if_neg (by simp : ¬ (c ++ rest).length < c.length)]
  rw [List.take_left, List.drop_left]

theorem decryptChunks_chunk_ok (aad nonce c rest out m : List Nat) (total : Nat)
    (h24 : nonce.length = 24) (hc32 : c.length < 4294967296)
    (hopen : openBytes nonce aad c = some m) :
    decryptChunks aad (nonce ++ u32be c.length ++ c ++ rest) out total
      = decryptChunks aad rest (out ++ m) (total + m.length) := by
  rw [decryptChunks_chunk aad nonce c rest out total h24 hc32, hopen]

theorem decryptChunks_chunk_fail (aad nonce c rest out : List Nat) (total : Nat)
    (h24 : nonce.length = 24) (hc32 : c.length < 4294967296)
    (hopen : openBytes nonce aad c = none) :
    decryptChunks aad (nonce ++ u32be c.length ++ c ++ rest) out total
      = (out, .error .decryptFailed) := by
  rw [decryptChunks_chunk aad nonce c rest out total h24 hc32, hopen]

/-- Decrypting the concatenation of the encrypted chunks of `P` with any
suffix behaves like decrypting the suffix after delivering `P`. -/
theorem decryptChunks_encChunks (nonces : Nat → List Nat) (aad : List Nat)
    (h24 : ∀ j, (nonces j).length = 24) :
    ∀ N P, P.length ≤ N → ∀ i out total tail,
      decryptChunks aad ((encChunks nonces aad i P).1 ++ tail) out total
        = decryptChunks aad tail (out ++ P) (total + P.length) := by
  intro N
  induction N with
  | zero =>
    intro P hP i out total tail
    have hPnil : P = [] := List.length_eq_zero.mp (Nat.le_zero.mp hP)
    subst hPnil
    rw [encChunks]
    simp
  | succ N ih =>
    intro P hP i out total tail
    by_cases hPnil : P = []
    · subst hPnil
      rw [encChunks]
      simp
    · have henc : (encChunks nonces aad i P).1
          = nonces i ++ u32be (sealBytes (nonces i) aad (P.take CHUNK_SIZE)).length
            ++ sealBytes (nonces i) aad (P.take CHUNK_SIZE)
            ++ (encChunks nonces aad (i + 1) (P.drop CHUNK_SIZE)).1 := by
        conv_lhs => rw [encChunks]
        simp [hPnil]
      have hm : (P.take CHUNK_SIZE).length ≤ 65536 := by
        rw [List.length_take, (rfl : CHUNK_SIZE = 65536)]
        exact Nat.min_le_left _ _
      have hc32 : (sealBytes (nonces i) aad (P.take CHUNK_SIZE)).length
          < 4294967296 := by
        rw [length_sealBytes]
        omega
      rw [henc, List.append_assoc]
      rw [decryptChunks_chunk_ok aad (nonces i) _ _ out _ total (h24 i) hc32
        (openBytes_sealBytes (nonces i) aad (P.take CHUNK_SIZE))]
      have hdroplen : (P.drop CHUNK_SIZE).length ≤ N := by
        have : 0 < P.length := List.length_pos.mpr hPnil
        simp only [List.length_drop, CHUNK_SIZE]
        omega
      rw [ih (P.drop CHUNK_SIZE) hdroplen (i + 1) (out ++ P.take CHUNK_SIZE)
        (total + (P.take CHUNK_SIZE).length) tail]
      rw [List.append_assoc, List.take_append_drop]
      have : total + (P.take CHUNK_SIZE).length + (P.drop CHUNK_SIZE).length
          = total + P.length := by
        have h1 := List.length_take CHUNK_SIZE P
        have h2 := List.length_drop CHUNK_SIZE P
        omega
      rw [this]

theorem encChunks_total (nonces : Nat → List Nat) (aad : List Nat) :
    ∀ N P, P.length ≤ N → ∀ i, (encChunks nonces aad i P).2 = P.length := by
  intro N
  induction N with
  | zero =>
    intro P hP i
    have hPnil : P = [] := List.length_eq_zero.mp (Nat.le_zero.mp hP)
    subst hPnil
    rw [encChunks]
    simp
  | succ N ih =>
    intro P hP i
    by_cases hPnil : P = []
    · subst hPnil
      rw [encChunks]
      simp
    · have henc : (encChunks nonces aad i P).2
          = (P.take CHUNK_SIZE).length + (encChunks nonces aad (i + 1) (P.drop CHUNK_SIZE)).2 := by
        conv_lhs => rw [encChunks]
        simp [hPnil]
      have hdroplen : (P.drop CHUNK_SIZE).length ≤ N := by
        have : 0 < P.length := List.length_pos.mpr hPnil
        simp only [List.length_drop, CHUNK_SIZE]
        omega
      rw [henc, ih (P.drop CHUNK_SIZE) hdroplen (i + 1)]
      have h1 := List.length_take CHUNK_SIZE P
      have h2 := List.length_drop CHUNK_SIZE P
      omega

/-- Unfolding of `decrypt_stream` on a stream with a valid V2 header. -/
theorem decrypt_stream_v2 (fb : Nat) (s2 : List Nat) (a : Option (List Nat)) :
    decrypt_stream (VERSION_V2_STREAM :: fb :: s2) a
      = (match decryptChunks (aadB a) s2 [] 0 with
         | (out, .ok total) => (out, .ok (total, FormatFlags.from_byte fb))
         | (out, .error e) => (out, .error e)) := by
  simp [decrypt_stream]

/-- Round trip over the full stream format, with a trailing fragment of
fewer than 24 bytes and any decryption AAD that agrees with the
encryption AAD at the byte level. -/
theorem decrypt_encrypt_agree (nonces : Nat → List Nat)
    (h24 : ∀ j, (nonces j).length = 24) (P : List Nat) (f : FormatFlags)
    (a b : Option (List Nat)) (hab : aadB a = aadB b) (tail : List Nat)
    (htail : tail.length < 24) :
    decrypt_stream ((encrypt_stream nonces P f a).1 ++ tail) b
      = (P, .ok (P.length, f)) := by
  have hstream : (encrypt_stream nonces P f a).1 ++ tail
      = VERSION_V2_STREAM :: f.to_byte :: ((encChunks nonces (aadB a) 0 P).1 ++ tail) := by
    simp [encrypt_stream]
  rw [hstream, decrypt_stream_v2, ← hab]
  rw [decryptChunks_encChunks nonces (aadB a) h24 P.length P (le_refl _) 0 [] 0 tail]
  rw [decryptChunks_short (aadB a) tail ([] ++ P) (0 + P.length) htail]
  simp [FormatFlags.from_byte_to_byte]

/-- Decrypting a stream encrypted under AAD bytes that differ from the
decryption AAD bytes fails on the very first chunk, with nothing written
to the sink. -/
theorem decrypt_encrypt_disagree (nonces : Nat → List Nat)
    (h24 : ∀ j, (nonces j).length = 24) (P : List Nat) (f : FormatFlags)
    (a b : Option (List Nat)) (hP : P ≠ []) (hab : aadB a ≠ aadB b) :
    decrypt_stream ((encrypt_stream nonces P f a).1) b
      = ([], .error .decryptFailed) := by
  have henc : (encChunks nonces (aadB a) 0 P).1
      = nonces 0 ++ u32be (sealBytes (nonces 0) (aadB a) (P.take CHUNK_SIZE)).length
        ++ sealBytes (nonces 0) (aadB a) (P.take CHUNK_SIZE)
        ++ (encChunks nonces (aadB a) 1 (P.drop CHUNK_SIZE)).1 := by
    conv_lhs => rw [encChunks]
    simp [hP]
  have hm : (P.take CHUNK_SIZE).length ≤ 65536 := by
    rw [List.length_take, (rfl : CHUNK_SIZE = 65536)]
    exact Nat.min_le_left _ _
  have hc32 : (sealBytes (nonces 0) (aadB a) (P.take CHUNK_SIZE)).length
      < 4294967296 := by
    rw [length_sealBytes]
    omega
  have hstream : (encrypt_stream nonces P f a).1
      = VERSION_V2_STREAM :: f.to_byte :: (encChunks nonces (aadB a) 0 P).1 := by
    simp [encrypt_stream]
  rw [hstream, decrypt_stream_v2, henc]
  rw [decryptChunks_chunk_fail (aadB b) (nonces 0) _ _ [] 0 (h24 0) hc32
    (openBytes_sealBytes_wrong_aad (nonces 0) (aadB a) (aadB b) (P.take CHUNK_SIZE) hab)]

/-- After the final encrypted chunk, a leftover fragment of 24 to 27 bytes
lets the nonce read succeed but starves the 4-byte length read. -/
theorem decrypt_encrypt_starved_len (nonces : Nat → List Nat)
    (h24 : ∀ j, (nonces j).length = 24) (P : List Nat) (f : FormatFlags)
    (a : Option (List Nat)) (tail : List Nat) (h1 : 24 ≤ tail.length)
    (h2 : tail.length < 28) :
    decrypt_stream ((encrypt_stream nonces P f a).1 ++ tail) a
      = (P, .error .eofChunkLen) := by
  have hstream : (encrypt_stream nonces P f a).1 ++ tail
      = VERSION_V2_STREAM :: f.to_byte :: ((encChunks nonces (aadB a) 0 P).1 ++ tail) := by
    simp [encrypt_stream]
  rw [hstream, decrypt_stream_v2]
  rw [decryptChunks_encChunks nonces (aadB a) h24 P.length P (le_refl _) 0 [] 0 tail]
  rw [decryptChunks]
  rw [if_neg (by omega : ¬ tail.length < 24)]
  rw [if_pos (by simp [List.length_drop]; omega : (tail.drop 24).length < 4)]
  simp

/-- After the final encrypted chunk, a leftover fragment that announces a
chunk length larger than the remaining bytes starves the ciphertext read. -/
theorem decrypt_encrypt_starved_chunk (nonces : Nat → List Nat)
    (h24 : ∀ j, (nonces j).length = 24) (P : List Nat) (f : FormatFlags)
    (a : Option (List Nat)) (nonceT shortT : List Nat) (L : Nat)
    (hn : nonceT.length = 24) (hL32 : L < 4294967296)
    (hshort : shortT.length < L) :
    decrypt_stream ((encrypt_stream nonces P f a).1 ++ (nonceT ++ u32be L ++ shortT)) a
      = (P, .error .eofChunk) := by
  have hstream : (encrypt_stream nonces P f a).1 ++ (nonceT ++ u32be L ++ shortT)
      = VERSION_V2_STREAM :: f.to_byte
        :: ((encChunks nonces (aadB a) 0 P).1 ++ (nonceT ++ u32be L ++ shortT)) := by
    simp [encrypt_stream]
  rw [hstream, decrypt_stream_v2]
  rw [decryptChunks_encChunks nonces (aadB a) h24 P.length P (le_refl _) 0 [] 0 _]
  rw [decryptChunks]
  have hlen : (nonceT ++ u32be L ++ shortT).length = 24 + (4 + shortT.length) := by
    simp [hn, length_u32be]
  rw [if_neg (by omega : ¬ (nonceT ++ u32be L ++ shortT).length < 24)]
  have hdropN : (nonceT ++ u32be L ++ shortT).drop 24 = u32be L ++ shortT := by
    rw [List.append_assoc]
    exact List.drop_left' hn
  have hlen4 : (u32be L ++ shortT).length = 4 + shortT.length := by
    simp [length_u32be]
  rw [hdropN]
  rw [if_neg (by omega : ¬ (u32be L ++ shortT).length < 4)]
  have htake4 : (u32be L ++ shortT).take 4 = u32be L :=
    List.take_left' (length_u32be L)
  have hdrop4 : (u32be L ++ shortT).drop 4 = shortT :=
    List.drop_left' (length_u32be L)
  rw [htake4, hdrop4, readU32be_u32be L hL32]
  rw [if_pos hshort]
  simp

theorem encChunks_nil (nonces : Nat → List Nat) (aad : List Nat) (i : Nat) :
    encChunks nonces aad i [] = ([], 0) := by
  rw [encChunks]
  simp

theorem chunkify_nil : chunkify [] = [] := by
  rw [chunkify]
  simp

/-- The encrypted stream splits at any chunk boundary: the first `k`
encrypted chunks are exactly the encryption of the first `k * CHUNK_SIZE`
plaintext bytes. -/
theorem encChunks_split (nonces : Nat → List Nat) (aad : List Nat) :
    ∀ k i P, (encChunks nonces aad i P).1
      = (encChunks nonces aad i (P.take (k * CHUNK_SIZE))).1
        ++ (encChunks nonces aad (i + k) (P.drop (k * CHUNK_SIZE))).1 := by
  intro k
  induction k with
  | zero =>
    intro i P
    rw [Nat.zero_mul, List.take_zero, List.drop_zero, Nat.add_zero]
    rw [encChunks_nil]
    simp
  | succ k ih =>
    intro i P
    by_cases hP : P = []
    · subst hP
      simp only [List.take_nil, List.drop_nil]
      simp [encChunks_nil]
    · have hQ : P.take ((k + 1) * CHUNK_SIZE) ≠ [] := by
        intro hq
        rcases List.take_eq_nil_iff.mp hq with h | h
        · exact absurd h (Nat.mul_ne_zero (Nat.succ_ne_zero k)
            (by decide : CHUNK_SIZE ≠ 0))
        · exact hP h
      have hQtake : (P.take ((k + 1) * CHUNK_SIZE)).take CHUNK_SIZE
          = P.take CHUNK_SIZE := by
        have harith : min CHUNK_SIZE ((k + 1) * CHUNK_SIZE) = CHUNK_SIZE :=
          Nat.min_eq_left (Nat.le_mul_of_pos_left CHUNK_SIZE (Nat.succ_pos k))
        rw [List.take_take, harith]
      have hQdrop : (P.take ((k + 1) * CHUNK_SIZE)).drop CHUNK_SIZE
          = (P.drop CHUNK_SIZE).take (k * CHUNK_SIZE) := by
        have harith : (k + 1) * CHUNK_SIZE - CHUNK_SIZE = k * CHUNK_SIZE := by
          rw [Nat.succ_mul, Nat.add_sub_cancel]
        rw [List.drop_take, harith]
      have hlhs : (encChunks nonces aad i P).1
          = nonces i ++ u32be (sealBytes (nonces i) aad (P.take CHUNK_SIZE)).length
            ++ sealBytes (nonces i) aad (P.take CHUNK_SIZE)
            ++ (encChunks nonces aad (i + 1) (P.drop CHUNK_SIZE)).1 := by
        conv_lhs => rw [encChunks]
        simp [hP]
      have hrhs : (encChunks nonces aad i (P.take ((k + 1) * CHUNK_SIZE))).1
          = nonces i ++ u32be (sealBytes (nonces i) aad (P.take CHUNK_SIZE)).length
            ++ sealBytes (nonces i) aad (P.take CHUNK_SIZE)
            ++ (encChunks nonces aad (i + 1) ((P.drop CHUNK_SIZE).take (k * CHUNK_SIZE))).1 := by
        conv_lhs => rw [encChunks]
        simp [hQ, hQtake, hQdrop]
      have hdd : P.drop ((k + 1) * CHUNK_SIZE)
          = (P.drop CHUNK_SIZE).drop (k * CHUNK_SIZE) := by
        have harith : CHUNK_SIZE + k * CHUNK_SIZE = (k + 1) * CHUNK_SIZE := by
          rw [Nat.succ_mul, Nat.add_comm]
        rw [List.drop_drop, harith]
      rw [hlhs, hrhs, hdd, ih (i + 1) (P.drop CHUNK_SIZE)]
      have hik : i + 1 + k = i + (k + 1) := by omega
      rw [hik]
      simp [List.append_assoc]

/-- The first `k` plaintext chunks concatenate to the first
`k * CHUNK_SIZE` plaintext bytes, and a `k`-th chunk exists only while
`k * CHUNK_SIZE` has not exhausted the plaintext. -/
theorem chunkify_take (k : Nat) : ∀ P, k < (chunkify P).length →
    ((chunkify P).take k).flatten = P.take (k * CHUNK_SIZE)
      ∧ k * CHUNK_SIZE < P.length := by
  induction k with
  | zero =>
    intro P hk
    constructor
    · simp
    · have hP : P ≠ [] := by
        intro h
        subst h
        rw [chunkify_nil] at hk
        simp at hk
      have := List.length_pos.mpr hP
      simpa using this
  | succ k ih =>
    intro P hk
    have hP : P ≠ [] := by
      intro h
      subst h
      rw [chunkify_nil] at hk
      simp at hk
    have hch : chunkify P = P.take CHUNK_SIZE :: chunkify (P.drop CHUNK_SIZE) := by
      conv_lhs => rw [chunkify]
      simp [hP]
    rw [hch] at hk
    simp only [List.length_cons] at hk
    have hk2 : k < (chunkify (P.drop CHUNK_SIZE)).length := by omega
    obtain ⟨ihf, ihl⟩ := ih (P.drop CHUNK_SIZE) hk2
    constructor
    · rw [hch]
      simp only [List.take_succ_cons, List.flatten_cons, ihf]
      have harith : (k + 1) * CHUNK_SIZE = CHUNK_SIZE + k * CHUNK_SIZE := by
        rw [Nat.succ_mul, Nat.add_comm]
      rw [harith, List.take_add]
    · have hdl := List.length_drop CHUNK_SIZE P
      rw [Nat.succ_mul]
      omega

theorem findEntry_replaceFile (es : List Entry) (m : Name) (c : List Nat)
    (n : Name) :
    findEntry (replaceFile es m c) n = if n = m then some c else findEntry es n := by
  induction es with
  | nil =>
    simp only [replaceFile, findEntry]
    by_cases h : n = m
    · subst h
      rw [if_pos rfl]
    · rw [if_neg (fun hh => h hh.symm), if_neg h]
  | cons e es ih =>
    cases e with
    | file m' c' =>
      simp only [replaceFile]
      by_cases hm : m' = m
      · subst hm
        rw [if_pos rfl]
        simp only [findEntry]
        by_cases h : n = m'
        · subst h
          simp
        · rw [if_neg (fun hh => h hh.symm), if_neg h, if_neg (fun hh => h hh.symm)]
      · rw [if_neg hm]
        simp only [findEntry, ih]
        by_cases hmn : m' = n
        · subst hmn
          have hnm : ¬ m' = m := hm
          rw [if_pos rfl, if_neg hnm, if_pos rfl]
        · rw [if_neg hmn]
          by_cases h2 : n = m
          · rw [if_pos h2, if_pos h2]
          · rw [if_neg h2, if_neg h2, if_neg hmn]
    | dir d =>
      simp only [replaceFile, findEntry, ih]

theorem find?_insertFile (st : Storage) (m : Name) (c : List Nat) (n : Name) :
    (st.insertFile m c).find? n = if n = m then some c else st.find? n := by
  rcases st with ⟨es⟩
  simpa [Storage.insertFile, Storage.find?] using findEntry_replaceFile es m c n

theorem findEntry_removeEntry (es : List Entry) (m n : Name) :
    findEntry (removeEntry es m) n = if n = m then none else findEntry es n := by
  induction es with
  | nil =>
    simp only [removeEntry, findEntry]
    by_cases h : n = m
    · rw [if_pos h]
    · rw [if_neg h]
  | cons e es ih =>
    cases e with
    | file m' c' =>
      simp only [removeEntry]
      by_cases hm : m' = m
      · subst hm
        rw [if_pos rfl, ih]
        simp only [findEntry]
        by_cases h : n = m'
        · rw [if_pos h, if_pos h]
        · rw [if_neg h, if_neg h, if_neg (fun hh => h hh.symm)]
      · rw [if_neg hm]
        simp only [findEntry, ih]
        by_cases hmn : m' = n
        · subst hmn
          have hnm : ¬ m' = m := hm
          rw [if_pos rfl, if_neg hnm, if_pos rfl]
        · rw [if_neg hmn]
          by_cases h2 : n = m
          · rw [if_pos h2, if_pos h2]
          · rw [if_neg h2, if_neg h2, if_neg hmn]
    | dir d =>
      simp only [removeEntry, findEntry, ih]

theorem find?_removeFile (st : Storage) (m n : Name) :
    (st.removeFile m).find? n = if n = m then none else st.find? n := by
  rcases st with ⟨es⟩
  simpa [Storage.removeFile, Storage.find?] using findEntry_removeEntry es m n

theorem decodeMeta_encodeMeta (m : FileMetadata) :
    decodeMeta (encodeMeta m) = some m := by
  rcases m with ⟨fn, sz⟩
  simp only [encodeMeta, decodeMeta]
  rw [if_pos (by simp)]
  congr 1
  have ht : (fn ++ [sz]).take fn.length = fn := List.take_left fn [sz]
  have hd : (fn ++ [sz]).drop fn.length = [sz] := List.drop_left fn [sz]
  simp [ht, hd]

/-- Claim C1: for every plaintext `P` (all lengths, including 0, 1, one
chunk, one chunk + 1 and several chunks + remainder), every `FormatFlags`
value `f` and every optional AAD `a`, running `decrypt_stream` with AAD
`a` on the output of `encrypt_stream P f a` succeeds, writes exactly `P`
to the sink, and returns the pair `(|P|, f)`. -/
theorem claim_c1_stream_round_trip (nonces : Nat → List Nat) (P : List Nat)
    (f : FormatFlags) (a : Option (List Nat))
    (h24 : ∀ j, (nonces j).length = 24) :
    decrypt_stream ((encrypt_stream nonces P f a).1) a
      = (P, .ok (P.length, f)) := by
  have h := decrypt_encrypt_agree nonces h24 P f a a rfl []
    (by simp : ([] : List Nat).length < 24)
  simpa using h

theorem claim_c1_witness :
    decrypt_stream ((encrypt_stream (fun _ => List.replicate 24 0) [1, 2, 3]
        ⟨true⟩ (some [7])).1) (some [7])
      = ([1, 2, 3], .ok (3, ⟨true⟩)) :=
  claim_c1_stream_round_trip (fun _ => List.replicate 24 0) [1, 2, 3] ⟨true⟩
    (some [7]) (fun j => by simp)

/-- Claim C2 counterexample: a V2 header followed by a single stray byte
is a partial nonce read (end of input after 1 of 24 nonce bytes), yet
`decrypt_stream` succeeds, because tokio's `read_exact` reports the same
`UnexpectedEof` error kind for a partial read as for a clean end of
input, and the code matches only on that kind.  The claim requires this
input to fail. -/
theorem claim_c2_counterexample :
    decrypt_stream [2, 0, 5] none = ([], .ok (0, ⟨false⟩)) := by
  show decrypt_stream (VERSION_V2_STREAM :: 0 :: [5]) none = ([], .ok (0, ⟨false⟩))
  rw [decrypt_stream_v2]
  rw [decryptChunks_short (aadB none) [5] [] 0 (by decide)]
  exact rfl

/-- Claim C2 as amended: in `decrypt_stream`'s chunk loop, end of input
anywhere within the 24-byte nonce read — after 0 up to 23 bytes, partial
reads included — terminates the loop successfully, while end of input
during the 4-byte length read or during the ciphertext read makes the
whole decryption fail. -/
theorem claim_c2_amended (nonces : Nat → List Nat) (P : List Nat)
    (f : FormatFlags) (a : Option (List Nat))
    (h24 : ∀ j, (nonces j).length = 24) :
    (∀ trailing : List Nat, trailing.length < 24 →
      decrypt_stream ((encrypt_stream nonces P f a).1 ++ trailing) a
        = (P, .ok (P.length, f)))
    ∧ (∀ trailing : List Nat, 24 ≤ trailing.length → trailing.length < 28 →
      decrypt_stream ((encrypt_stream nonces P f a).1 ++ trailing) a
        = (P, .error .eofChunkLen))
    ∧ (∀ (nonceT shortT : List Nat) (L : Nat), nonceT.length = 24 →
      L < 4294967296 → shortT.length < L →
      decrypt_stream ((encrypt_stream nonces P f a).1
          ++ (nonceT ++ u32be L ++ shortT)) a
        = (P, .error .eofChunk)) := by
  refine ⟨?_, ?_, ?_⟩
  · intro trailing ht
    exact decrypt_encrypt_agree nonces h24 P f a a rfl trailing ht
  · intro trailing h1 h2
    exact decrypt_encrypt_starved_len nonces h24 P f a trailing h1 h2
  · intro nonceT shortT L hn hL hs
    exact decrypt_encrypt_starved_chunk nonces h24 P f a nonceT shortT L hn hL hs

theorem claim_c2_amended_witness :
    decrypt_stream ((encrypt_stream (fun _ => List.replicate 24 0) [1]
        ⟨false⟩ none).1 ++ [9, 9]) none
      = ([1], .ok (1, ⟨false⟩)) :=
  (claim_c2_amended (fun _ => List.replicate 24 0) [1] ⟨false⟩ none
    (fun j => by simp)).1 [9, 9] (by decide)

/-- Claim C3: for every input stream whose first byte is any value other
than 2, `decrypt_stream` fails with the version-mismatch (Format) error —
structurally distinct from the Decryption error — before reading any
chunk and before writing anything to the sink. -/
theorem claim_c3_version_rejected (v : Nat) (rest : List Nat)
    (a : Option (List Nat)) (hv : v ≠ 2) :
    decrypt_stream (v :: rest) a = ([], .error (.versionMismatch v))
      ∧ (SfError.versionMismatch v).category = .format
      ∧ (SfError.versionMismatch v).category ≠ SfError.decryptFailed.category := by
  refine ⟨?_, rfl, by simp [SfError.category]⟩
  simp [decrypt_stream, VERSION_V2_STREAM, hv]

theorem claim_c3_witness :
    decrypt_stream (7 :: [1, 2, 3]) (some [5]) = ([], .error (.versionMismatch 7))
      ∧ (SfError.versionMismatch 7).category = .format
      ∧ (SfError.versionMismatch 7).category ≠ SfError.decryptFailed.category :=
  claim_c3_version_rejected 7 [1, 2, 3] (some [5]) (by decide)

/-- Claim C9: for every plaintext whose encryption has `n ≥ 1` chunks and
every `k < n`, the encrypted stream splits as header plus the first `k`
complete chunks plus the rest, and decrypting the header plus the first
`k` complete chunks (with the matching AAD) succeeds and returns exactly
the concatenation of the first `k` plaintext chunks — whole-chunk
truncation is indistinguishable from a legitimately shorter stream. -/
theorem claim_c9_chunk_truncation (nonces : Nat → List Nat) (P : List Nat)
    (f : FormatFlags) (a : Option (List Nat)) (k : Nat)
    (h24 : ∀ j, (nonces j).length = 24) (hk : k < (chunkify P).length) :
    (encrypt_stream nonces P f a).1
        = (VERSION_V2_STREAM :: f.to_byte
            :: (encChunks nonces (aadB a) 0 (P.take (k * CHUNK_SIZE))).1)
          ++ (encChunks nonces (aadB a) k (P.drop (k * CHUNK_SIZE))).1
      ∧ decrypt_stream (VERSION_V2_STREAM :: f.to_byte
            :: (encChunks nonces (aadB a) 0 (P.take (k * CHUNK_SIZE))).1) a
        = (((chunkify P).take k).flatten,
           .ok ((((chunkify P).take k).flatten).length, f)) := by
  obtain ⟨hfl, hlt⟩ := chunkify_take k P hk
  constructor
  · simp only [encrypt_stream]
    rw [encChunks_split nonces (aadB a) k 0 P]
    simp
  · have h := decrypt_encrypt_agree nonces h24 (P.take (k * CHUNK_SIZE)) f a a
      rfl [] (by simp : ([] : List Nat).length < 24)
    rw [hfl]
    simpa [encrypt_stream] using h

theorem claim_c9_witness :
    ((encrypt_stream (fun _ => List.replicate 24 0) [1, 2, 3] ⟨false⟩ none).1
        = (VERSION_V2_STREAM :: FormatFlags.to_byte ⟨false⟩
            :: (encChunks (fun _ => List.replicate 24 0) (aadB none) 0
                 ([1, 2, 3].take (0 * CHUNK_SIZE))).1)
          ++ (encChunks (fun _ => List.replicate 24 0) (aadB none) 0
               ([1, 2, 3].drop (0 * CHUNK_SIZE))).1)
      ∧ decrypt_stream (VERSION_V2_STREAM :: FormatFlags.to_byte ⟨false⟩
            :: (encChunks (fun _ => List.replicate 24 0) (aadB none) 0
                 ([1, 2, 3].take (0 * CHUNK_SIZE))).1) none
        = (((chunkify [1, 2, 3]).take 0).flatten,
           .ok ((((chunkify [1, 2, 3]).take 0).flatten).length, ⟨false⟩)) :=
  claim_c9_chunk_truncation (fun _ => List.replicate 24 0) [1, 2, 3] ⟨false⟩
    none 0 (fun j => by simp)
    (by rw [chunkify]; simp)

theorem Encryptor.decrypt_encrypt (nonce msg : List Nat)
    (aad : Option (List Nat)) (h24 : nonce.length = 24) :
    Encryptor.decrypt (Encryptor.encrypt nonce msg aad) aad = .ok msg := by
  have hlen : (Encryptor.encrypt nonce msg aad).length
      = 24 + (msg.length + 16) := by
    simp [Encryptor.encrypt, length_sealBytes, h24]
  have htake : (Encryptor.encrypt nonce msg aad).take 24 = nonce := by
    simp only [Encryptor.encrypt]
    exact List.take_left' h24
  have hdrop : (Encryptor.encrypt nonce msg aad).drop 24
      = sealBytes nonce (aadB aad) msg := by
    simp only [Encryptor.encrypt]
    exact List.drop_left' h24
  simp only [Encryptor.decrypt, hlen, htake, hdrop]
  rw [if_neg (by omega : ¬ 24 + (msg.length + 16) < 24)]
  rw [openBytes_sealBytes]

theorem Encryptor.decrypt_encrypt_compressed (nonce msg : List Nat)
    (aad : Option (List Nat)) (h24 : nonce.length = 24) :
    Encryptor.decrypt_compressed (Encryptor.encrypt_compressed nonce msg aad) aad
      = .ok msg := by
  simp only [Encryptor.decrypt_compressed, Encryptor.encrypt_compressed]
  rw [Encryptor.decrypt_encrypt nonce (compressBytes msg) aad h24]
  simp [decompressBytes, compressBytes]

/-- Claim C4 counterexample: the claim asserts that decrypting with no
AAD fails for every output of `encrypt_stream P f (Some a)` with `P`
non-empty; but for `a` the empty byte string, encrypting with
`Some(empty)` and decrypting with `None` pass the very same AAD bytes to
the cipher, so decryption succeeds. -/
theorem claim_c4_counterexample :
    decrypt_stream ((encrypt_stream (fun _ => List.replicate 24 0) [1]
        ⟨false⟩ (some [])).1) none
      = ([1], .ok (1, ⟨false⟩)) := by
  have h := decrypt_encrypt_agree (fun _ => List.replicate 24 0)
    (fun j => by simp) [1] ⟨false⟩ (some []) none rfl []
    (by simp : ([] : List Nat).length < 24)
  simpa using h

/-- Claim C4 as amended: decrypting the output of
`encrypt_stream P f (Some a)` under a different AAD `b ≠ a` fails with
the Decryption error for every non-empty `P` (nothing reaches the sink),
and so does decrypting with no AAD provided `a` is non-empty (for empty
`a`, no AAD and `Some a` are the same AAD bytes); decrypting with the
same AAD succeeds.  The façade seals and opens streams with the object's
logical name as the AAD: `write_encrypted_stream` stores exactly the
name-bound stream, `read_encrypted_stream` reads it back, and reading a
stored stream under a different logical name fails with the Decryption
error. -/
theorem claim_c4_aad_binding (nonces : Nat → List Nat) (P : List Nat)
    (f : FormatFlags) (a b : List Nat) (st : Storage) (name name2 : Name)
    (compress : Bool) (h24 : ∀ j, (nonces j).length = 24) :
    (P ≠ [] → b ≠ a →
      decrypt_stream ((encrypt_stream nonces P f (some a)).1) (some b)
        = ([], .error .decryptFailed))
    ∧ (P ≠ [] → a ≠ [] →
      decrypt_stream ((encrypt_stream nonces P f (some a)).1) none
        = ([], .error .decryptFailed))
    ∧ decrypt_stream ((encrypt_stream nonces P f (some a)).1) (some a)
        = (P, .ok (P.length, f))
    ∧ (name ≠ sidecarName name →
      (write_encrypted_stream nonces compress st name P).1.find? name
        = some ((encrypt_stream nonces P ⟨compress⟩ (some name)).1))
    ∧ (name ≠ sidecarName name →
      read_encrypted_stream ((write_encrypted_stream nonces compress st name P).1)
        name = .ok (P, P.length, compress))
    ∧ (P ≠ [] → name2 ≠ name →
      st.find? name2 = some ((encrypt_stream nonces P f (some name)).1) →
      read_encrypted_stream st name2 = .error .decryptFailed) := by
  refine ⟨?_, ?_, ?_, ?_, ?_, ?_⟩
  · intro hP hba
    exact decrypt_encrypt_disagree nonces h24 P f (some a) (some b) hP
      (by simpa [aadB] using fun hh => hba hh.symm)
  · intro hP ha
    exact decrypt_encrypt_disagree nonces h24 P f (some a) none hP
      (by simpa [aadB] using ha)
  · have h := decrypt_encrypt_agree nonces h24 P f (some a) (some a) rfl []
      (by simp : ([] : List Nat).length < 24)
    simpa using h
  · intro hns
    simp only [write_encrypted_stream, recordMeta, find?_insertFile,
      if_neg hns]
    simp
  · intro hns
    have hfind : (write_encrypted_stream nonces compress st name P).1.find? name
        = some ((encrypt_stream nonces P ⟨compress⟩ (some name)).1) := by
      simp only [write_encrypted_stream, recordMeta, find?_insertFile,
        if_neg hns]
      simp
    have hdec : decrypt_stream ((encrypt_stream nonces P ⟨compress⟩ (some name)).1)
        (some name) = (P, .ok (P.length, (⟨compress⟩ : FormatFlags))) := by
      have h := decrypt_encrypt_agree nonces h24 P ⟨compress⟩ (some name)
        (some name) rfl [] (by simp : ([] : List Nat).length < 24)
      simpa using h
    simp [read_encrypted_stream, hfind, hdec]
  · intro hP hnn hfind
    have hdec : decrypt_stream ((encrypt_stream nonces P f (some name)).1)
        (some name2) = ([], .error .decryptFailed) :=
      decrypt_encrypt_disagree nonces h24 P f (some name) (some name2) hP
        (by simpa [aadB] using fun hh => hnn hh.symm)
    simp [read_encrypted_stream, hfind, hdec]

theorem claim_c4_witness :
    decrypt_stream ((encrypt_stream (fun _ => List.replicate 24 0) [1]
        ⟨false⟩ (some [7])).1) (some [8])
      = ([], .error .decryptFailed) :=
  (claim_c4_aad_binding (fun _ => List.replicate 24 0) [1] ⟨false⟩ [7] [8]
    ⟨[]⟩ [97] [98] false (fun j => by simp)).1 (by decide) (by decide)

/-- Claim C5: `read_encrypted_auto` on an empty stored object fails with
the empty-file (Storage) error; a stored object whose first byte is 2 is
decrypted as a V2 stream with the logical name as AAD; a stored object
whose first byte is anything else is decrypted as a V1 buffer with the
façade's configured compression flag.  Instantiated on both write paths:
reading back a streamed write returns the plaintext, and reading back a
buffer write whose nonce does not start with byte 2 returns the
plaintext with the configured flag. -/
theorem claim_c5_auto_read (compress : Bool) (st : Storage) (name : Name)
    (nonces : Nat → List Nat) (h24 : ∀ j, (nonces j).length = 24) :
    (st.find? name = some [] →
      read_encrypted_auto compress st name = .error .emptyFile
        ∧ SfError.emptyFile.category = .storage)
    ∧ (∀ rest : List Nat, st.find? name = some (2 :: rest) →
      read_encrypted_auto compress st name
        = (match decrypt_stream (2 :: rest) (some name) with
           | (out, .ok (_, fl)) => .ok (out, fl.compressed)
           | (_, .error e) => .error e))
    ∧ (∀ (b : Nat) (rest : List Nat), st.find? name = some (b :: rest) →
      b ≠ 2 →
      read_encrypted_auto compress st name
        = (match (if compress then Encryptor.decrypt_compressed (b :: rest) none
                  else Encryptor.decrypt (b :: rest) none) with
           | .ok m => .ok (m, compress)
           | .error e => .error e))
    ∧ (∀ P : List Nat, name ≠ sidecarName name →
      read_encrypted_auto compress
        ((write_encrypted_stream nonces compress st name P).1) name
        = .ok (P, compress))
    ∧ (∀ (n0 : Nat) (nrest data : List Nat), n0 ≠ 2 →
      (n0 :: nrest).length = 24 → name ≠ sidecarName name →
      read_encrypted_auto compress
        (write_encrypted compress (n0 :: nrest) st name data) name
        = .ok (data, compress)) := by
  refine ⟨?_, ?_, ?_, ?_, ?_⟩
  · intro hfind
    refine ⟨?_, rfl⟩
    simp [read_encrypted_auto, hfind]
  · intro rest hfind
    simp only [read_encrypted_auto, hfind]
    rw [if_pos (show (2 : Nat) = VERSION_V2_STREAM from rfl)]
  · intro b rest hfind hb
    simp only [read_encrypted_auto, hfind]
    rw [if_neg (by simpa [VERSION_V2_STREAM] using hb)]
  · intro P hns
    have hfind : (write_encrypted_stream nonces compress st name P).1.find? name
        = some ((encrypt_stream nonces P ⟨compress⟩ (some name)).1) := by
      simp only [write_encrypted_stream, recordMeta, find?_insertFile,
        if_neg hns]
      simp
    have hdec : decrypt_stream ((encrypt_stream nonces P ⟨compress⟩ (some name)).1)
        (some name) = (P, .ok (P.length, (⟨compress⟩ : FormatFlags))) := by
      have h := decrypt_encrypt_agree nonces h24 P ⟨compress⟩ (some name)
        (some name) rfl [] (by simp : ([] : List Nat).length < 24)
      simpa using h
    have hshape : (encrypt_stream nonces P ⟨compress⟩ (some name)).1
        = 2 :: FormatFlags.to_byte ⟨compress⟩ :: (encChunks nonces (aadB (some name)) 0 P).1 := by
      simp [encrypt_stream, VERSION_V2_STREAM]
    rw [hshape] at hfind hdec
    simp only [read_encrypted_auto, hfind]
    rw [if_pos (show (2 : Nat) = VERSION_V2_STREAM from rfl)]
    rw [hdec]
  · intro n0 nrest data hn0 hlen hns
    have henc : (if compress then Encryptor.encrypt_compressed (n0 :: nrest) data none
        else Encryptor.encrypt (n0 :: nrest) data none)
        = n0 :: (nrest ++ sealBytes (n0 :: nrest) (aadB none)
            (if compress then compressBytes data else data)) := by
      by_cases hc : compress <;>
        simp [hc, Encryptor.encrypt_compressed, Encryptor.encrypt]
    have hfind : (write_encrypted compress (n0 :: nrest) st name data).find? name
        = some (n0 :: (nrest ++ sealBytes (n0 :: nrest) (aadB none)
            (if compress then compressBytes data else data))) := by
      simp only [write_encrypted, recordMeta, find?_insertFile, if_neg hns]
      rw [← henc]
      simp
    simp only [read_encrypted_auto, hfind]
    rw [if_neg (show ¬ n0 = VERSION_V2_STREAM from hn0)]
    rw [← henc]
    by_cases hc : compress
    · subst hc
      rw [if_pos rfl, if_pos rfl]
      rw [Encryptor.decrypt_encrypt_compressed (n0 :: nrest) data none hlen]
    · simp only [hc]
      rw [if_neg (by simp), if_neg (by simp)]
      rw [Encryptor.decrypt_encrypt (n0 :: nrest) data none hlen]

theorem claim_c5_witness :
    read_encrypted_auto false
      ((write_encrypted_stream (fun _ => List.replicate 24 0) false
        ⟨[]⟩ [97] [5, 6]).1) [97]
      = .ok ([5, 6], false) :=
  ((claim_c5_auto_read false ⟨[]⟩ [97] (fun _ => List.replicate 24 0)
    (fun j => by simp)).2.2.2.1) [5, 6] (by decide)

/-- Claim C6: `KeyManager` construction with an existing key file
succeeds exactly when the file content is 32 bytes long, returning the
key bytes unchanged (no truncation or padding); any other length fails
with the Key error. -/
theorem claim_c6_key_validation (data freshKey : List Nat) :
    (data.length = 32 → keyManagerNew (some data) freshKey = .ok data)
    ∧ (data.length ≠ 32 →
      keyManagerNew (some data) freshKey = .error (.keyLength data.length))
    ∧ (SfError.keyLength data.length).category = .key := by
  refine ⟨?_, ?_, rfl⟩
  · intro h
    simp only [keyManagerNew, h]
    rw [if_neg (by omega)]
    rw [← h, List.take_length]
  · intro h
    simp only [keyManagerNew]
    rw [if_pos h]

theorem claim_c6_witness :
    keyManagerNew (some (List.replicate 32 5)) [] = .ok (List.replicate 32 5)
      ∧ keyManagerNew (some [1, 2, 3]) [] = .error (.keyLength 3) :=
  ⟨(claim_c6_key_validation (List.replicate 32 5) []).1 (by simp),
   (claim_c6_key_validation [1, 2, 3] []).2.1 (by decide)⟩

/-- Claim C7 counterexample: the claim says deleting a logical name whose
object file is absent "changes nothing", but when the object is absent
and the sidecar exists, `delete_file` still deletes the sidecar: deleting
`a.txt` from a store holding only `a.meta.json` succeeds and empties the
store. -/
theorem claim_c7_counterexample :
    delete_file (fun _ => false)
        ⟨[.file (sidecarName [97, 46, 116, 120, 116]) [7]]⟩
        [97, 46, 116, 120, 116]
      = .ok ⟨[]⟩
      ∧ (⟨[]⟩ : Storage)
        ≠ ⟨[.file (sidecarName [97, 46, 116, 120, 116]) [7]]⟩ := by
  constructor
  · rfl
  · decide

/-- Claim C7 as amended: `delete_file` on an absent object succeeds, with
the object still absent afterwards, and is a strict no-op when the
sidecar is also absent (when the sidecar exists it is still removed);
when the object is present and its removal succeeds, the object is gone
and the sidecar too when its removal succeeds; a sidecar removal failure
is swallowed (the call still succeeds, returning the state with just the
object removed); a failure removing the object itself fails the call. -/
theorem claim_c7_idempotent_delete (st : Storage) (rf : Name → Bool)
    (name : Name) :
    (st.existsFile name = false →
      ∃ st2, delete_file rf st name = .ok st2 ∧ st2.find? name = none
        ∧ (st.existsFile (sidecarName name) = false → st2 = st))
    ∧ (st.existsFile name = true → rf name = false →
      ∃ st2, delete_file rf st name = .ok st2 ∧ st2.existsFile name = false
        ∧ (rf (sidecarName name) = false →
            st2.existsFile (sidecarName name) = false))
    ∧ (st.existsFile name = true → rf name = true →
      delete_file rf st name = .error (.removeFailed name))
    ∧ (st.existsFile name = true → rf name = false →
      rf (sidecarName name) = true →
      delete_file rf st name = .ok (st.removeFile name)) := by
  have hfind_of_not : st.existsFile name = false → st.find? name = none := by
    intro h
    cases hf : st.find? name with
    | none => rfl
    | some v =>
      simp only [Storage.existsFile, hf] at h
      simp at h
  refine ⟨?_, ?_, ?_, ?_⟩
  · intro hex
    simp only [delete_file, hex, Bool.false_eq_true, if_false]
    by_cases hsc : st.existsFile (sidecarName name)
    · rw [if_pos hsc]
      by_cases hrf : rf (sidecarName name)
      · exact ⟨st, by rw [if_pos hrf], hfind_of_not hex, fun h => rfl⟩
      · refine ⟨st.removeFile (sidecarName name), by rw [if_neg hrf], ?_, ?_⟩
        · rw [find?_removeFile]
          by_cases h2 : name = sidecarName name
          · rw [if_pos h2]
          · rw [if_neg h2]
            exact hfind_of_not hex
        · intro h
          rw [h] at hsc
          simp at hsc
    · rw [if_neg hsc]
      exact ⟨st, rfl, hfind_of_not hex, fun h => rfl⟩
  · intro hex hrf
    simp only [delete_file, hex, if_true, hrf, Bool.false_eq_true, if_false]
    by_cases hsc : (st.removeFile name).existsFile (sidecarName name)
    · rw [if_pos hsc]
      by_cases hrs : rf (sidecarName name)
      · refine ⟨st.removeFile name, by rw [if_pos hrs], ?_, ?_⟩
        · simp [Storage.existsFile, find?_removeFile]
        · intro h
          rw [h] at hrs
          exact absurd hrs (by simp)
      · refine ⟨(st.removeFile name).removeFile (sidecarName name),
          by rw [if_neg hrs], ?_, ?_⟩
        · simp [Storage.existsFile, find?_removeFile]
        · intro h
          simp [Storage.existsFile, find?_removeFile]
    · rw [if_neg hsc]
      refine ⟨st.removeFile name, rfl, ?_, ?_⟩
      · simp [Storage.existsFile, find?_removeFile]
      · intro h
        simpa using hsc
  · intro hex hrf
    simp only [delete_file, hex, if_true, hrf]
  · intro hex hrf hrs
    simp only [delete_file, hex, if_true, hrf, Bool.false_eq_true, if_false]
    by_cases hsc : (st.removeFile name).existsFile (sidecarName name)
    · rw [if_pos hsc, if_pos hrs]
    · rw [if_neg hsc]

theorem claim_c7_witness :
    ∃ st2, delete_file (fun _ => false) (⟨[]⟩ : Storage) [97] = .ok st2
      ∧ st2.find? [97] = none ∧ ((⟨[]⟩ : Storage).existsFile
          (sidecarName [97]) = false → st2 = (⟨[]⟩ : Storage)) :=
  (claim_c7_idempotent_delete ⟨[]⟩ (fun _ => false) [97]).1 (by decide)

/-- Claim C10: the sidecar path replaces the object name's final
extension with `meta.json`, so two distinct logical names with the same
stem share one sidecar path; writing the second object overwrites the
first one's metadata record (reading metadata for the first returns the
second's record), and deleting the first removes the second's sidecar. -/
theorem claim_c10_sidecar_collision (n1 n2 : Name) (st : Storage)
    (nonce data : List Nat) (compress : Bool)
    (hstem : fileStem n1 = fileStem n2) :
    sidecarName n1 = sidecarName n2
    ∧ get_metadata (write_encrypted compress nonce st n2 data) n1
        = .ok ⟨n2, data.length⟩
    ∧ ((write_encrypted compress nonce st n2 data).existsFile n1 = false →
      ∃ st2, delete_file (fun _ => false)
          (write_encrypted compress nonce st n2 data) n1 = .ok st2
        ∧ st2.find? (sidecarName n2) = none) := by
  have hside : sidecarName n1 = sidecarName n2 := by
    simp [sidecarName, hstem]
  have hfindsc : (write_encrypted compress nonce st n2 data).find? (sidecarName n1)
      = some (encodeMeta ⟨n2, data.length⟩) := by
    simp only [write_encrypted, recordMeta, hside, find?_insertFile]
    simp
  refine ⟨hside, ?_, ?_⟩
  · simp only [get_metadata, hfindsc, decodeMeta_encodeMeta]
  · intro hex
    have hfind_of_not :
        (write_encrypted compress nonce st n2 data).find? n1 = none := by
      cases hf : (write_encrypted compress nonce st n2 data).find? n1 with
      | none => rfl
      | some v =>
        simp only [Storage.existsFile, hf] at hex
        simp at hex
    refine ⟨(write_encrypted compress nonce st n2 data).removeFile
      (sidecarName n1), ?_, ?_⟩
    · simp only [delete_file, hex, Bool.false_eq_true, if_false]
      rw [if_pos (by simp [Storage.existsFile, hfindsc])]
    · rw [find?_removeFile, ← hside, if_pos rfl]

theorem claim_c10_witness :
    sidecarName [97, 46, 116, 120, 116] = sidecarName [97, 46, 98, 105, 110]
      ∧ get_metadata (write_encrypted false (List.replicate 24 0) ⟨[]⟩
          [97, 46, 98, 105, 110] [1, 2]) [97, 46, 116, 120, 116]
        = .ok ⟨[97, 46, 98, 105, 110], 2⟩
      ∧ ((write_encrypted false (List.replicate 24 0) ⟨[]⟩
          [97, 46, 98, 105, 110] [1, 2]).existsFile [97, 46, 116, 120, 116]
            = false →
        ∃ st2, delete_file (fun _ => false)
            (write_encrypted false (List.replicate 24 0) ⟨[]⟩
              [97, 46, 98, 105, 110] [1, 2]) [97, 46, 116, 120, 116]
          = .ok st2
          ∧ st2.find? (sidecarName [97, 46, 98, 105, 110]) = none) := by
  have h := claim_c10_sidecar_collision [97, 46, 116, 120, 116]
    [97, 46, 98, 105, 110] ⟨[]⟩ (List.replicate 24 0) [1, 2] false
    (by decide)
  have hlen : ([1, 2] : List Nat).length = 2 := rfl
  rw [hlen] at h
  exact h

theorem lexLe_total : ∀ a b : List Nat, lexLe a b = true ∨ lexLe b a = true := by
  intro a
  induction a with
  | nil => intro b; left; rfl
  | cons x xs ih =>
    intro b
    cases b with
    | nil => right; rfl
    | cons y ys =>
      simp only [lexLe]
      by_cases h1 : x < y
      · left; rw [if_pos h1]
      · by_cases h2 : y < x
        · right; rw [if_pos h2]
        · rcases ih ys with h | h
          · left; rw [if_neg h1, if_neg h2]; exact h
          · right; rw [if_neg h2, if_neg h1]; exact h

theorem lexLe_trans : ∀ a b c : List Nat,
    lexLe a b = true → lexLe b c = true → lexLe a c = true := by
  intro a
  induction a with
  | nil => intro b c hab hbc; rfl
  | cons x xs ih =>
    intro b c hab hbc
    cases b with
    | nil => simp [lexLe] at hab
    | cons y ys =>
      cases c with
      | nil => simp [lexLe] at hbc
      | cons z zs =>
        simp only [lexLe] at hab hbc ⊢
        by_cases h1 : x < y
        · by_cases h2 : y < z
          · rw [if_pos (by omega : x < z)]
          · by_cases h3 : z < y
            · rw [if_neg h2, if_pos h3] at hbc
              simp at hbc
            · rw [if_pos (by omega : x < z)]
        · by_cases h4 : y < x
          · rw [if_neg h1, if_pos h4] at hab
            simp at hab
          · rw [if_neg h1, if_neg h4] at hab
            by_cases h2 : y < z
            · rw [if_pos (by omega : x < z)]
            · by_cases h3 : z < y
              · rw [if_neg h2, if_pos h3] at hbc
                simp at hbc
              · rw [if_neg h2, if_neg h3] at hbc
                rw [if_neg (by omega : ¬ x < z), if_neg (by omega : ¬ z < x)]
                exact ih ys zs hab hbc

theorem perm_insEntry (x : Name × Nat × Bool) (l : List (Name × Nat × Bool)) :
    (insEntry x l).Perm (x :: l) := by
  induction l with
  | nil => exact List.Perm.refl _
  | cons y ys ih =>
    simp only [insEntry]
    by_cases h : lexLe x.1 y.1
    · rw [if_pos h]
    · rw [if_neg h]
      exact (ih.cons y).trans (List.Perm.swap x y ys)

theorem perm_sortByName (l : List (Name × Nat × Bool)) :
    (sortByName l).Perm l := by
  induction l with
  | nil => exact List.Perm.refl _
  | cons x xs ih =>
    simp only [sortByName, List.foldr_cons]
    exact (perm_insEntry x _).trans (ih.cons x)

theorem pairwise_insEntry (x : Name × Nat × Bool) (l : List (Name × Nat × Bool))
    (hl : l.Pairwise (fun a b => lexLe a.1 b.1 = true)) :
    (insEntry x l).Pairwise (fun a b => lexLe a.1 b.1 = true) := by
  induction l with
  | nil => simp [insEntry]
  | cons y ys ih =>
    rcases List.pairwise_cons.mp hl with ⟨hy, hys⟩
    simp only [insEntry]
    by_cases h : lexLe x.1 y.1
    · rw [if_pos h]
      refine List.pairwise_cons.mpr ⟨?_, hl⟩
      intro z hz
      rcases List.mem_cons.mp hz with rfl | hz
      · exact h
      · exact lexLe_trans _ _ _ h (hy z hz)
    · rw [if_neg h]
      refine List.pairwise_cons.mpr ⟨?_, ih hys⟩
      intro z hz
      have hz2 : z = x ∨ z ∈ ys := by
        have hm := (perm_insEntry x ys).mem_iff.mp hz
        simpa using hm
      rcases hz2 with rfl | hz2
      · rcases lexLe_total z.1 y.1 with h1 | h1
        · exact absurd h1 h
        · exact h1
      · exact hy z hz2

theorem pairwise_sortByName (l : List (Name × Nat × Bool)) :
    (sortByName l).Pairwise (fun a b => lexLe a.1 b.1 = true) := by
  induction l with
  | nil => simp [sortByName]
  | cons x xs ih =>
    simp only [sortByName, List.foldr_cons]
    exact pairwise_insEntry x _ ih

/-- Every metadata sidecar path produced by `sidecarName` carries the
`.meta.json` suffix. -/
theorem isMetaSidecar_sidecarName (n : Name) :
    isMetaSidecar (sidecarName n) = true := by
  simp only [isMetaSidecar, sidecarName]
  exact List.isSuffixOf_iff_suffix.mpr (List.suffix_append _ _)

/-- Claim C8 counterexample: the claim says `list_files` excludes only
subdirectories and metadata sidecars, but an object legitimately named
`a.json` — not a sidecar (it lacks the `.meta.json` suffix every sidecar
path carries) and not a directory — is silently omitted, because the
code skips every entry with extension `json`. -/
theorem claim_c8_counterexample :
    list_files ⟨[.file [97, 46, 106, 115, 111, 110] [1, 2, 3]]⟩ = []
      ∧ isMetaSidecar [97, 46, 106, 115, 111, 110] = false := by
  constructor
  · rfl
  · rfl

/-- Claim C8 as amended: `list_files` returns exactly the direct file
entries of the storage root, excluding subdirectories and every entry
whose final extension is `json` (which covers all metadata sidecars, but
also any ordinary object named `*.json`), as `(name, size, has_metadata)`
tuples sorted lexicographically by name; writing `file1`, `file2`,
`file3` and listing yields exactly those three names in order, each with
metadata present. -/
theorem claim_c8_listing (st : Storage) :
    (list_files st).Perm (st.entries.filterMap (listItem st))
    ∧ (list_files st).Pairwise (fun a b => lexLe a.1 b.1 = true)
    ∧ list_files (write_encrypted false (List.replicate 24 0)
        (write_encrypted false (List.replicate 24 0)
          (write_encrypted false (List.replicate 24 0) ⟨[]⟩
            [102, 105, 108, 101, 49] [9])
          [102, 105, 108, 101, 50] [9])
        [102, 105, 108, 101, 51] [9])
      = [([102, 105, 108, 101, 49], 41, true),
         ([102, 105, 108, 101, 50], 41, true),
         ([102, 105, 108, 101, 51], 41, true)] := by
  refine ⟨perm_sortByName _, pairwise_sortByName _, ?_⟩
  rfl
